import Mathlib

/-!
Verification of the gentoo_update log-parsing core: a shallow embedding of
`src/gentoo_update/parser_package.py` (tokenizer, status classification,
record builders, aggregation) and `src/gentoo_update/parser.py` (section
splitter), with theorems settling the specification's claims about them.

Python strings are embedded as `String`/`List Char`; fallible operations
(index errors) return `Option`; Python dicts keyed by strings are embedded
as insertion-ordered association lists with overwrite-on-reassignment.
-/

namespace GentooUpdate

/-- Python `str.strip()`: drop whitespace from both ends of a char list. -/
def trimChars (l : List Char) : List Char :=
  ((l.dropWhile Char.isWhitespace).reverse.dropWhile Char.isWhitespace).reverse

/-- Component of Python's `in` on strings: `p` is a leading piece of `l`. -/
def hasPre : List Char → List Char → Bool
  | [], _ => true
  | _ :: _, [] => false
  | a :: as, b :: bs => a == b && hasPre as bs

/-- Python `sub in s` for strings: `p` occurs contiguously inside `l`. -/
def hasSub (p : List Char) : List Char → Bool
  | [] => hasPre p []
  | b :: bs => hasPre p (b :: bs) || hasSub p bs

/-- Python `s.split(sep)` for a one-character separator `sep`. -/
def splitChar (sep : Char) : List Char → List (List Char)
  | [] => [[]]
  | c :: cs =>
    if c == sep then
      [] :: splitChar sep cs
    else
      match splitChar sep cs with
      | s :: ss => (c :: s) :: ss
      | [] => [[c]]

/-- Python `s.split("::")`: split on the two-character separator, leftmost
non-overlapping occurrences. -/
def splitColon2 : List Char → List (List Char)
  | [] => [[]]
  | [c] => [[c]]
  | a :: b :: cs =>
    if a == ':' && b == ':' then
      [] :: splitColon2 cs
    else
      match splitColon2 (b :: cs) with
      | s :: ss => (a :: s) :: ss
      | [] => [[a]]

/-- The log line marker `" ::: "` as a char list. -/
def markerChars : List Char := [' ', ':', ':', ':', ' ']

/-- Python `s.split(" ::: ")`: split on the five-character marker, leftmost
non-overlapping occurrences; a tail shorter than the marker cannot open a
match and stays in the current segment. -/
def splitMark5 : List Char → List (List Char)
  | c1 :: c2 :: c3 :: c4 :: c5 :: cs =>
    if c1 == ' ' && c2 == ':' && c3 == ':' && c4 == ':' && c5 == ' ' then
      [] :: splitMark5 cs
    else
      match splitMark5 (c2 :: c3 :: c4 :: c5 :: cs) with
      | s :: ss => (c1 :: s) :: ss
      | [] => [[c1]]
  | l => [l]

/-- Python `str.isnumeric()` over the ASCII data in these logs: nonempty and
all digits. -/
def isNumericL (l : List Char) : Bool :=
  !l.isEmpty && l.all Char.isDigit

/-- If `pat` is a leading piece of `l`, the remainder of `l` after it. -/
def stripPre : List Char → List Char → Option (List Char)
  | [], l => some l
  | _ :: _, [] => none
  | a :: as, b :: bs => if a == b then stripPre as bs else none

/-- Fuel-driven worker for `removeAll`; fuel at least the list length makes
it total and keeps it structurally recursive (so it evaluates by `rfl`). -/
def removeAllF (pat : List Char) : Nat → List Char → List Char
  | _, [] => []
  | 0, l => l
  | fuel + 1, c :: cs =>
    if pat.isEmpty then
      c :: removeAllF pat fuel cs
    else
      match stripPre pat (c :: cs) with
      | some rest => removeAllF pat fuel rest
      | none => c :: removeAllF pat fuel cs

/-- Python `s.replace(pat, "")`: delete every leftmost non-overlapping
occurrence of `pat` (with `pat = ""` the string is unchanged). -/
def removeAll (pat l : List Char) : List Char :=
  removeAllF pat l.length l

/-! ## The tokenizer `PackageParser._parse_package_string`
(`src/gentoo_update/parser_package.py` lines 19-51). The loop state carries
the emitted tokens, the current buffer `temp`, the running double-quote
count and the running bracket depth, exactly as in the source. -/

/-- The mutable state of the tokenizer loop. -/
structure ScanSt where
  toks : List (List Char)
  temp : List Char
  quotes_count : Nat
  brackets_count : Int
deriving DecidableEq, Repr

/-- The loop's quote-counter update for one character. -/
def qStep (c : Char) (q : Nat) : Nat :=
  if c == '"' then q + 1 else q

/-- The loop's bracket-counter update for one character. -/
def bStep (c : Char) (b : Int) : Int :=
  if c == '[' then b + 1 else if c == ']' then b - 1 else b

/-- The emission test of the loop: a space while the quote count is even
and the bracket depth is zero. -/
def sepCond (c : Char) (q : Nat) (b : Int) : Bool :=
  c == ' ' && q % 2 == 0 && b == 0

/-- One iteration of the tokenizer's `for char in package_string` loop:
append the char to `temp`, update the counters, and on a space at even
quote count and zero bracket depth emit the stripped buffer. -/
def scanStep (st : ScanSt) (c : Char) : ScanSt :=
  let temp := st.temp ++ [c]
  let q := qStep c st.quotes_count
  let b := bStep c st.brackets_count
  if sepCond c q b then
    ⟨st.toks ++ [trimChars temp], [], q, b⟩
  else
    ⟨st.toks, temp, q, b⟩

/-- The tokenizer loop run over a whole char list from the initial state. -/
def scanRun (l : List Char) : ScanSt :=
  l.foldl scanStep ⟨[], [], 0, 0⟩

/-- Tokens of a char list: run the loop, then emit any nonempty remaining
buffer (stripped) as a final token. -/
def tokensL (l : List Char) : List (List Char) :=
  let fin := scanRun l
  if fin.temp.isEmpty then fin.toks else fin.toks ++ [trimChars fin.temp]

/-- `PackageParser._parse_package_string`: split a package line into parts,
keeping spaces inside quoted and bracketed spans. -/
def parse_package_string (s : String) : List String :=
  (tokensL s.data).map String.mk

/-! ## Line-selection regexes of `parse_update_details` and the splitter -/

/-- After a candidate `[`, scan for a `]` with no newline first; used for the
second and later characters of the bracketed gap. -/
def scanClose : List Char → Bool
  | [] => false
  | c :: cs => if c == ']' then true else if c == '\n' then false else scanClose cs

/-- After a `[`: is there a `]` at distance at least two from the `[`, with
only non-newline characters between (Python `re.search(r"\[(.+?)\]", ...)`
needs one or more `.` between the brackets)? -/
def closesGapped : List Char → Bool
  | [] => false
  | c :: cs => c != '\n' && scanClose cs

/-- `re.search(r"\[(.+?)\]", s)` succeeds: some `[` is followed, after at
least one intervening non-newline character, by a `]`. -/
def hasBracketContent : List Char → Bool
  | [] => false
  | c :: cs => (c == '[' && closesGapped cs) || hasBracketContent cs

/-- After a candidate `{{`, scan for a `}}` with no newline first. -/
def scanClose2 : List Char → Bool
  | [] => false
  | c :: cs =>
    if c == '}' && hasPre ['}'] cs then true
    else if c == '\n' then false
    else scanClose2 cs

/-- After a `{{`: a `}}` with at least one non-newline character between. -/
def bracesGapped : List Char → Bool
  | [] => false
  | c :: cs => c != '\n' && scanClose2 cs

/-- `re.search(r"\{\{(.+?)\}\}", s)` succeeds. -/
def hasBracePat : List Char → Bool
  | [] => false
  | c :: cs => (c == '{' && hasPre ['{'] cs && bracesGapped (cs.drop 1)) || hasBracePat cs

/-! ## The record type
Modelled from the spec: the repository imports `PackageInfo` from
`.report_objects`, a file that is not under `src/`. Per spec section 3, a
PackageRecord carries kind, name, optional new/old version, status, optional
repo, and an `attributes` mapping from keys to ordered sequences of string
values with unique keys per record (dict semantics: a later assignment under
an existing key overwrites it in place). -/

structure PackageInfo where
  package_type : String
  package_name : String
  new_version : Option String
  old_version : Option String
  update_status : String
  repo : Option String
  attributes : List (String × List String) := []
deriving DecidableEq, Repr

/-- Dict-style insert: overwrite an existing binding of `k` in place, else
append the new binding at the end. -/
def dictIns (k : String) (v : List String) : List (String × List String) → List (String × List String)
  | [] => [(k, v)]
  | (k', v') :: rest => if k' == k then (k, v) :: rest else (k', v') :: dictIns k v rest

/-- Modelled from the spec: `PackageInfo.add_attributes({key: value})`
records the value under the key in the record's attributes mapping. -/
def add_attributes (p : PackageInfo) (k : String) (v : List String) : PackageInfo :=
  { p with attributes := dictIns k v p.attributes }

/-! ## `PackageParser._determine_update_status` (lines 53-75) -/

/-- Simplified package status from the bracketed status token: the first of
`N`, `R`, `U` found in the string decides, else `Undefined`. -/
def determine_update_status (s : String) : String :=
  if s.data.contains 'N' then "NewPackage"
  else if s.data.contains 'R' then "ReEmerge"
  else if s.data.contains 'U' then "Update"
  else "Undefined"

/-! ## The record builders (lines 77-193) -/

/-- A hyphen-delimited part of `name-version` that belongs to the version:
purely numeric, or containing `.` or `:`, or the two-character revision
pattern `r` followed by a digit. -/
def isVersionPart (part : List Char) : Bool :=
  isNumericL part || part.contains '.' || part.contains ':' ||
    (match part with
     | [a, b] => a == 'r' && b.isDigit
     | _ => false)

/-- The `key="v1 v2"` attribute extraction of the ebuild builder's final
loop: for a token containing `="`, split on every `=`, take the piece right
of the first `=`, drop its first and last characters, and split the rest on
single spaces. -/
def attrOf (var : String) : Option (String × List String) :=
  if hasSub ['=', '"'] var.data then
    match splitChar '=' var.data with
    | k :: v1 :: _ =>
      some (String.mk k, (splitChar ' ' ((v1.drop 1).dropLast)).map String.mk)
    | _ => none
  else
    none

/-- Fold of the ebuild builder's attribute loop over all tokens. -/
def addAttrs (base : PackageInfo) (sp : List String) : PackageInfo :=
  sp.foldl (fun p var =>
    match attrOf var with
    | some (k, v) => add_attributes p k v
    | none => p) base

/-- `PackageParser._parse_package_ebuild` (lines 77-125). `none` models a
Python `IndexError`: fewer than three tokens, or no `::` in token 1. -/
def parse_package_ebuild (sp : List String) : Option PackageInfo :=
  match sp with
  | s0 :: s1 :: s2 :: _ =>
    match splitColon2 s1.data with
    | nn :: rp :: _ =>
      let update_status := determine_update_status s0
      let parts := splitChar '-' nn
      let package_name_h :=
        parts.foldl (fun acc part =>
          if isVersionPart part then acc else acc ++ part ++ ['-']) []
      let new_version := removeAll package_name_h nn
      let old_version := ((splitColon2 s2.data).headI).drop 1
      let package_name := package_name_h.dropLast
      let base : PackageInfo :=
        ⟨"ebuild", String.mk package_name, some (String.mk new_version),
         some (String.mk old_version), update_status, some (String.mk rp), []⟩
      some (addAttrs base sp)
    | _ => none
  | _ => none

/-- `PackageParser._parse_package_blocks` (lines 127-158). `none` models a
Python `IndexError` on fewer than two tokens. -/
def parse_package_blocks (sp : List String) : Option PackageInfo :=
  match sp with
  | s0 :: s1 :: rest =>
    let base : PackageInfo :=
      ⟨"blocks", String.mk (s1.data.drop 1), none, none, s0, none, []⟩
    let lastTok := (s1 :: rest).getLast (by simp)
    some (add_attributes base "blocked_package" [String.mk lastTok.data.dropLast])
  | _ => none

/-- `PackageParser._parse_package_uninstall` (lines 160-193). `none` models a
Python `IndexError`: fewer than two tokens, or no `::` in token 1. -/
def parse_package_uninstall (sp : List String) : Option PackageInfo :=
  match sp with
  | s0 :: s1 :: _ =>
    match splitColon2 s1.data with
    | nm :: _ :: _ =>
      match splitColon2 s1.data with
      | nmx :: rpx :: _ =>
        let base : PackageInfo :=
          ⟨"uninstall", String.mk nmx, none, none, s0, some (String.mk rpx), []⟩
        some (add_attributes base "uninstalled_package" [String.mk nm])
      | _ => none
    | _ => none
  | _ => none

/-! ## `PackageParser.parse_update_details` (lines 195-230) -/

/-- The list-comprehension filter: the line matches `\[(.+?)\]` and is not
the literal `"[ ok ]"`. -/
def selLine (l : String) : Bool :=
  hasBracketContent l.data && l != "[ ok ]"

/-- Work done for one selected line: tokenize, read the first token, and
dispatch on which of `ebuild`, `blocks`, `uninstall` it contains; an
unknown variant contributes nothing. `none` models a Python exception. -/
def parseLine (l : String) : Option (List PackageInfo) :=
  match parse_package_string l with
  | [] => none
  | status :: rest =>
    if hasSub ['e', 'b', 'u', 'i', 'l', 'd'] status.data then
      (parse_package_ebuild (status :: rest)).map ([·])
    else if hasSub ['b', 'l', 'o', 'c', 'k', 's'] status.data then
      (parse_package_blocks (status :: rest)).map ([·])
    else if hasSub ['u', 'n', 'i', 'n', 's', 't', 'a', 'l', 'l'] status.data then
      (parse_package_uninstall (status :: rest)).map ([·])
    else
      some []

/-- The accumulation loop of `parse_update_details` over the selected lines. -/
def goDetails : List String → Option (List PackageInfo)
  | [] => some []
  | l :: ls => do
    let ps ← parseLine l
    let rest ← goDetails ls
    pure (ps ++ rest)

/-- `PackageParser.parse_update_details`: filter the section lines, then
build one record per recognized package line, in order. -/
def parse_update_details (section_content : List String) : Option (List PackageInfo) :=
  goDetails (section_content.filter selLine)

/-! ## `Parser.split_log_to_sections` (`src/gentoo_update/parser.py` lines 30-54)
The Python dict mixes two value shapes: section names map to content lists,
while the key `"final"` is assigned a raw line (a plain string). The
embedding keeps the section part as an insertion-ordered association list
and the `"final"` slot separately. -/

/-- The result of the splitter: named sections in insertion order, and the
single-slot `final` bucket for unmarked lines (last one wins). -/
structure Sections where
  secs : List (String × List String)
  final : Option String
deriving DecidableEq, Repr

/-- Python dict assignment `d[k] = []`: overwrite an existing binding of `k`
in place (resetting its content), else append a new binding at the end. -/
def dictSet (k : String) (v : List String) : List (String × List String) → List (String × List String)
  | [] => [(k, v)]
  | (k', v') :: rest => if k' == k then (k, v) :: rest else (k', v') :: dictSet k v rest

/-- Python `d[k].append(x)` on a key that is present (as it always is when
the splitter appends); on an absent key it adds the binding, a state the
splitter never reaches. -/
def dictApp (k : String) (x : String) : List (String × List String) → List (String × List String)
  | [] => [(k, [x])]
  | (k', v') :: rest => if k' == k then (k', v' ++ [x]) :: rest else (k', v') :: dictApp k x rest

/-- Is the line marked with `" ::: "`? -/
def isMarked (l : String) : Bool :=
  hasSub markerChars l.data

/-- The payload of a marked line: text after the first `" ::: "`, stripped
(`line.split(" ::: ")[1].strip()`). -/
def payloadOf (l : String) : String :=
  match splitMark5 l.data with
  | _ :: p :: _ => String.mk (trimChars p)
  | _ => l

/-- The loop of `split_log_to_sections` with its mutable state made
explicit: the current section name, the dict built so far, and the
`final` slot. -/
def goSections : List String → String → List (String × List String) → Option String → Sections
  | [], _, d, fin => ⟨d, fin⟩
  | line :: rest, name, d, fin =>
    if isMarked line then
      let p := payloadOf line
      if hasBracePat p.data then
        goSections rest p (dictSet p [] d) fin
      else
        goSections rest name (dictApp name p d) fin
    else
      goSections rest name d (some line)

/-- `Parser.split_log_to_sections`: route each line into the current named
section (headers `{{ ... }}` start a new one), unmarked lines into the
single `final` slot. -/
def split_log_to_sections (log_data : List String) : Sections :=
  goSections log_data "beginning" [("beginning", [])] none

/-! ## Derived notions used to state and prove the claims -/

/-- Number of double quotes in a char list (the tokenizer's quote counter
over a processed prefix). -/
def quotesIn (l : List Char) : Nat :=
  l.count '"'

/-- Bracket balance of a char list: occurrences of `[` minus occurrences of
`]` (the tokenizer's bracket counter over a processed prefix). -/
def bracketBal (l : List Char) : Int :=
  (l.count '[' : Int) - (l.count ']' : Int)

/-- Cons-style reformulation of the tokenizer loop with explicit buffer and
counters, used for induction; `tokC_eq_tokensL` ties it to `tokensL`. -/
def tokC : List Char → List Char → Nat → Int → List (List Char)
  | [], temp, _, _ => if temp.isEmpty then [] else [trimChars temp]
  | c :: cs, temp, q, b =>
    if sepCond c (qStep c q) (bStep c b) then
      trimChars (temp ++ [c]) :: tokC cs [] (qStep c q) (bStep c b)
    else
      tokC cs (temp ++ [c]) (qStep c q) (bStep c b)

/-- Does the scan of `l` from counters `(q, b)` meet a qualifying separator
space anywhere? -/
def hasSepB : List Char → Nat → Int → Bool
  | [], _, _ => false
  | c :: cs, q, b =>
    sepCond c (qStep c q) (bStep c b) || hasSepB cs (qStep c q) (bStep c b)

/-- Does the scan of `l` from counters `(q, b)` meet a qualifying separator
space before the last character? -/
def hasInnerSep : List Char → Nat → Int → Bool
  | [], _, _ => false
  | [_], _, _ => false
  | c :: cs, q, b =>
    sepCond c (qStep c q) (bStep c b) || hasInnerSep cs (qStep c q) (bStep c b)

/-- Join a token list with single spaces (char-list level). -/
def joinSp : List (List Char) → List Char
  | [] => []
  | [t] => t
  | t :: ts => t ++ ' ' :: joinSp ts

/-- The record one selected line contributes, if any. -/
def lineRecord (l : String) : Option PackageInfo :=
  (parseLine l).bind List.head?

/-- Shape conditions under which the builders perform no out-of-bounds token
access: enough tokens for the dispatched variant, and a `::` separator
where the variant indexes past one. -/
def lineOk (l : String) : Bool :=
  match parse_package_string l with
  | [] => false
  | status :: rest =>
    if hasSub ['e', 'b', 'u', 'i', 'l', 'd'] status.data then
      match rest with
      | s1 :: _ :: _ => (splitColon2 s1.data).length ≥ 2
      | _ => false
    else if hasSub ['b', 'l', 'o', 'c', 'k', 's'] status.data then
      rest.length ≥ 1
    else if hasSub ['u', 'n', 'i', 'n', 's', 't', 'a', 'l', 'l'] status.data then
      match rest with
      | s1 :: _ => (splitColon2 s1.data).length ≥ 2
      | _ => false
    else
      true

/-- The section headers of a log, in order of appearance: payloads of marked
lines matching the `{{ ... }}` pattern. -/
def headersOf (log : List String) : List String :=
  log.filterMap fun l =>
    if isMarked l && hasBracePat (payloadOf l).data then some (payloadOf l) else none

/-- The content payloads of a log, in order: payloads of marked lines that
are not section headers. -/
def payloadsOf (log : List String) : List String :=
  log.filterMap fun l =>
    if isMarked l && !hasBracePat (payloadOf l).data then some (payloadOf l) else none

/-- The last unmarked line of a log, if any. -/
def lastUnmarked (log : List String) : Option String :=
  (log.filter fun l => !isMarked l).getLast?

/-- Last-wins update of an optional slot: the new value when there is one,
else the old. -/
def lastWins (new old : Option String) : Option String :=
  match new with
  | some x => some x
  | none => old

/-- All section contents of a dict, flattened in section order. -/
def flatVals (d : List (String × List String)) : List String :=
  d.foldr (fun kv acc => kv.2 ++ acc) []

/-- The keys of a dict, in order. -/
def keysOf (d : List (String × List String)) : List String :=
  d.map Prod.fst

/-- The final flush of the tokenizer: emit a nonempty remaining buffer. -/
def flushSt (st : ScanSt) : List (List Char) :=
  if st.temp.isEmpty then st.toks else st.toks ++ [trimChars st.temp]

/-! ## Lemmas about the tokenizer scan -/

theorem tokensL_eq_flush (l : List Char) : tokensL l = flushSt (scanRun l) := rfl

theorem foldl_scanStep_flush (cs : List Char) :
    ∀ acc temp q b, flushSt (List.foldl scanStep ⟨acc, temp, q, b⟩ cs)
      = acc ++ tokC cs temp q b := by
  induction cs with
  | nil =>
    intro acc temp q b
    by_cases h : temp.isEmpty <;> simp [flushSt, tokC, h]
  | cons c cs ih =>
    intro acc temp q b
    rw [List.foldl_cons]
    show flushSt (List.foldl scanStep (scanStep ⟨acc, temp, q, b⟩ c) cs) = _
    rw [tokC]
    cases hs : sepCond c (qStep c q) (bStep c b) with
    | true =>
      have : scanStep ⟨acc, temp, q, b⟩ c
          = ⟨acc ++ [trimChars (temp ++ [c])], [], qStep c q, bStep c b⟩ := by
        simp [scanStep, hs]
      rw [this, ih]
      simp
    | false =>
      have : scanStep ⟨acc, temp, q, b⟩ c
          = ⟨acc, temp ++ [c], qStep c q, bStep c b⟩ := by
        simp [scanStep, hs]
      rw [this, ih]
      simp

theorem tokensL_eq_tokC (l : List Char) : tokensL l = tokC l [] 0 0 := by
  have := foldl_scanStep_flush l [] [] 0 0
  simpa [tokensL_eq_flush, scanRun] using this

theorem foldl_scanStep_quotes (cs : List Char) :
    ∀ st : ScanSt, (List.foldl scanStep st cs).quotes_count
      = st.quotes_count + quotesIn cs := by
  induction cs with
  | nil => intro st; simp [quotesIn]
  | cons c cs ih =>
    intro st
    rw [List.foldl_cons, ih]
    have hst : (scanStep st c).quotes_count = qStep c st.quotes_count := by
      cases hs : sepCond c (qStep c st.quotes_count) (bStep c st.brackets_count) <;>
        simp [scanStep, hs]
    rw [hst]
    by_cases hc : c = '"' <;>
      simp [qStep, hc, quotesIn, List.count_cons] <;> omega

theorem foldl_scanStep_brackets (cs : List Char) :
    ∀ st : ScanSt, (List.foldl scanStep st cs).brackets_count
      = st.brackets_count + bracketBal cs := by
  induction cs with
  | nil => intro st; simp [bracketBal]
  | cons c cs ih =>
    intro st
    rw [List.foldl_cons, ih]
    have hst : (scanStep st c).brackets_count = bStep c st.brackets_count := by
      cases hs : sepCond c (qStep c st.quotes_count) (bStep c st.brackets_count) <;>
        simp [scanStep, hs]
    rw [hst]
    by_cases h1 : c = '[' <;> by_cases h2 : c = ']' <;>
      simp_all [bStep, bracketBal, List.count_cons] <;> omega

theorem scanRun_quotes (l : List Char) : (scanRun l).quotes_count = quotesIn l := by
  simpa [scanRun] using foldl_scanStep_quotes l ⟨[], [], 0, 0⟩

theorem scanRun_brackets (l : List Char) : (scanRun l).brackets_count = bracketBal l := by
  simpa [scanRun] using foldl_scanStep_brackets l ⟨[], [], 0, 0⟩

theorem tokC_parity (cs : List Char) :
    ∀ temp q₁ q₂ b, q₁ % 2 = q₂ % 2 → tokC cs temp q₁ b = tokC cs temp q₂ b := by
  induction cs with
  | nil => intro temp q₁ q₂ b _; rfl
  | cons c cs ih =>
    intro temp q₁ q₂ b hq
    have hq' : qStep c q₁ % 2 = qStep c q₂ % 2 := by
      by_cases hc : c = '"' <;> simp [qStep, hc] <;> omega
    have hcond : sepCond c (qStep c q₁) (bStep c b) = sepCond c (qStep c q₂) (bStep c b) := by
      simp only [sepCond]
      rw [show ((qStep c q₁ % 2 == 0) : Bool) = (qStep c q₂ % 2 == 0) by rw [hq']]
    rw [tokC, tokC, hcond, ih [] _ _ (bStep c b) hq', ih (temp ++ [c]) _ _ (bStep c b) hq']

theorem scanRun_concat (u : List Char) (c : Char) :
    scanRun (u ++ [c]) = scanStep (scanRun u) c := by
  simp [scanRun, List.foldl_append]

theorem scanStep_space_sep (st : ScanSt)
    (hq : st.quotes_count % 2 = 0) (hb : st.brackets_count = 0) :
    scanStep st ' ' = ⟨st.toks ++ [trimChars (st.temp ++ [' '])], [],
      st.quotes_count, st.brackets_count⟩ := by
  have hcond : sepCond ' ' st.quotes_count st.brackets_count = true := by
    simp [sepCond, hq, hb]
  simp [scanStep, qStep, bStep, hcond]

theorem scanStep_space_nonsep (st : ScanSt)
    (h : ¬(st.quotes_count % 2 = 0 ∧ st.brackets_count = 0)) :
    scanStep st ' ' = ⟨st.toks, st.temp ++ [' '], st.quotes_count, st.brackets_count⟩ := by
  have hcond : sepCond ' ' st.quotes_count st.brackets_count = false := by
    simp [sepCond]
    omega
  simp [scanStep, qStep, bStep, hcond]

theorem tokensL_sep_split (u v : List Char)
    (hq : quotesIn u % 2 = 0) (hb : bracketBal u = 0) :
    tokensL (u ++ ' ' :: v) = tokensL (u ++ [' ']) ++ tokensL v := by
  have hqs : (scanRun u).quotes_count = quotesIn u := scanRun_quotes u
  have hbs : (scanRun u).brackets_count = 0 := by rw [scanRun_brackets, hb]
  have hstep := scanStep_space_sep (scanRun u) (by rw [hqs]; exact hq) hbs
  have hrun : scanRun (u ++ ' ' :: v)
      = List.foldl scanStep (scanStep (scanRun u) ' ') v := by
    have : u ++ ' ' :: v = (u ++ [' ']) ++ v := by simp
    rw [this, scanRun, List.foldl_append, ← scanRun, scanRun_concat]
  have hleft : tokensL (u ++ ' ' :: v)
      = ((scanRun u).toks ++ [trimChars ((scanRun u).temp ++ [' '])])
          ++ tokC v [] (scanRun u).quotes_count (scanRun u).brackets_count := by
    rw [tokensL_eq_flush, hrun, hstep]
    exact foldl_scanStep_flush v _ [] _ _
  have hmid : tokensL (u ++ [' '])
      = (scanRun u).toks ++ [trimChars ((scanRun u).temp ++ [' '])] := by
    rw [tokensL_eq_flush, scanRun_concat, hstep, flushSt]
    simp
  have hright : tokensL v = tokC v [] (scanRun u).quotes_count (scanRun u).brackets_count := by
    rw [tokensL_eq_tokC, hbs]
    exact tokC_parity v [] 0 (scanRun u).quotes_count 0 (by rw [hqs]; omega)
  rw [hleft, hmid, hright]

theorem scanRun_nonsep_space (u : List Char)
    (h : ¬(quotesIn u % 2 = 0 ∧ bracketBal u = 0)) :
    (scanRun (u ++ [' '])).toks = (scanRun u).toks ∧
      (scanRun (u ++ [' '])).temp = (scanRun u).temp ++ [' '] := by
  have hstep := scanStep_space_nonsep (scanRun u)
    (by rw [scanRun_quotes, scanRun_brackets]; exact h)
  rw [scanRun_concat, hstep]
  exact ⟨rfl, rfl⟩



theorem head?_dropWhile_not (p : Char → Bool) (l : List Char) :
    ∀ a, (l.dropWhile p).head? = some a → p a = false := by
  induction l with
  | nil => intro a h; simp at h
  | cons c cs ih =>
    intro a h
    rw [List.dropWhile_cons] at h
    by_cases hc : p c = true
    · exact ih a (by simpa [hc] using h)
    · rw [if_neg hc] at h
      have hca : c = a := by simpa using h
      rw [← hca]
      simpa using hc

theorem rev_dw_tw (p : Char → Bool) (y : List Char) :
    (y.reverse.dropWhile p).reverse ++ (y.reverse.takeWhile p).reverse = y := by
  rw [← List.reverse_append, List.takeWhile_append_dropWhile, List.reverse_reverse]

theorem trimChars_decomp (l : List Char) :
    ∃ w z, l = w ++ trimChars l ++ z
      ∧ (∀ c ∈ w, c.isWhitespace) ∧ (∀ c ∈ z, c.isWhitespace) := by
  refine ⟨l.takeWhile Char.isWhitespace,
    ((l.dropWhile Char.isWhitespace).reverse.takeWhile Char.isWhitespace).reverse,
    ?_, ?_, ?_⟩
  · rw [trimChars, List.append_assoc,
      rev_dw_tw Char.isWhitespace (l.dropWhile Char.isWhitespace),
      List.takeWhile_append_dropWhile]
  · intro c hc
    exact List.mem_takeWhile_imp hc
  · intro c hc
    rw [List.mem_reverse] at hc
    exact List.mem_takeWhile_imp hc

theorem trimChars_getLast?_not_ws (l : List Char) :
    ∀ a, (trimChars l).getLast? = some a → a.isWhitespace = false := by
  intro a h
  rw [trimChars, List.getLast?_reverse] at h
  exact head?_dropWhile_not _ _ a h

theorem trimChars_head?_not_ws (l : List Char) :
    ∀ a, (trimChars l).head? = some a → a.isWhitespace = false := by
  intro a h
  have hd : (l.dropWhile Char.isWhitespace)
      = trimChars l ++ ((l.dropWhile Char.isWhitespace).reverse.takeWhile Char.isWhitespace).reverse := by
    rw [trimChars]
    exact (rev_dw_tw Char.isWhitespace (l.dropWhile Char.isWhitespace)).symm
  have hne : trimChars l ≠ [] := by
    intro hnil
    rw [hnil] at h
    simp at h
  have : (l.dropWhile Char.isWhitespace).head? = some a := by
    rw [hd, List.head?_append_of_ne_nil _ hne]
    exact h
  exact head?_dropWhile_not _ _ a this

theorem trimChars_eq_self (l : List Char)
    (h1 : ∀ a, l.head? = some a → a.isWhitespace = false)
    (h2 : ∀ a, l.getLast? = some a → a.isWhitespace = false) :
    trimChars l = l := by
  cases l with
  | nil => rfl
  | cons c cs =>
    rw [trimChars]
    have hdw : (c :: cs).dropWhile Char.isWhitespace = c :: cs := by
      rw [List.dropWhile_cons, if_neg (by simp [h1 c rfl])]
    rw [hdw]
    have hrev : (c :: cs).reverse.dropWhile Char.isWhitespace = (c :: cs).reverse := by
      rcases hx : (c :: cs).reverse with _ | ⟨d, ds⟩
      · simp at hx
      · have hlast : (c :: cs).getLast? = some d := by
          rw [← List.head?_reverse]
          simp [hx]
        rw [List.dropWhile_cons, if_neg (by simp [h2 d hlast])]
    rw [hrev, List.reverse_reverse]

theorem trimChars_idem (l : List Char) :
    trimChars (trimChars l) = trimChars l :=
  trimChars_eq_self _ (trimChars_head?_not_ws l) (trimChars_getLast?_not_ws l)

theorem tokC_ne_nil_of_temp (cs : List Char) :
    ∀ temp q b, temp ≠ [] → tokC cs temp q b ≠ [] := by
  induction cs with
  | nil =>
    intro temp q b ht
    rw [tokC]
    simp [ht]
  | cons c cs ih =>
    intro temp q b _
    rw [tokC]
    cases hs : sepCond c (qStep c q) (bStep c b) with
    | true => simp
    | false =>
      simp only [Bool.false_eq_true, if_false]
      exact ih (temp ++ [c]) _ _ (by simp)

theorem tokC_ne_nil_of_cs (cs : List Char) (temp : List Char) (q : Nat) (b : Int)
    (h : cs ≠ []) : tokC cs temp q b ≠ [] := by
  cases cs with
  | nil => exact absurd rfl h
  | cons c cs' =>
    rw [tokC]
    cases hs : sepCond c (qStep c q) (bStep c b) with
    | true => simp
    | false =>
      simp only [Bool.false_eq_true, if_false]
      exact tokC_ne_nil_of_temp cs' (temp ++ [c]) _ _ (by simp)

theorem tokC_nil_empty (q : Nat) (b : Int) : tokC [] [] q b = [] := rfl

theorem tokC_no_sep (cs : List Char) :
    ∀ temp q b, hasSepB cs q b = false →
      tokC cs temp q b = if (temp ++ cs).isEmpty then [] else [trimChars (temp ++ cs)] := by
  induction cs with
  | nil => intro temp q b _; simp [tokC]
  | cons c cs ih =>
    intro temp q b h
    rw [hasSepB] at h
    have h1 : sepCond c (qStep c q) (bStep c b) = false := by
      cases hx : sepCond c (qStep c q) (bStep c b) <;> simp [hx] at h ⊢
    have h2 : hasSepB cs (qStep c q) (bStep c b) = false := by
      cases hx : hasSepB cs (qStep c q) (bStep c b) <;> simp [hx] at h ⊢
    rw [tokC, h1]
    simp only [Bool.false_eq_true, if_false]
    rw [ih (temp ++ [c]) _ _ h2]
    simp

theorem tokC_single_trim (cs : List Char) :
    ∀ temp q b t, tokC cs temp q b = [t] → t = trimChars (temp ++ cs) := by
  induction cs with
  | nil =>
    intro temp q b t h
    rw [tokC] at h
    by_cases ht : temp.isEmpty
    · rw [if_pos ht] at h
      exact absurd h (by simp)
    · rw [if_neg ht] at h
      have hh : trimChars temp = t := by simpa using h
      simp [← hh]
  | cons c cs ih =>
    intro temp q b t h
    rw [tokC] at h
    cases hs : sepCond c (qStep c q) (bStep c b) with
    | true =>
      rw [hs] at h
      simp only [if_true] at h
      have h2 : tokC cs [] (qStep c q) (bStep c b) = [] := by
        cases hx : tokC cs [] (qStep c q) (bStep c b) with
        | nil => rfl
        | cons y ys => rw [hx] at h; exact absurd h (by simp)
      have hcs : cs = [] := by
        by_contra hne
        exact tokC_ne_nil_of_cs cs [] _ _ hne h2
      rw [h2] at h
      have hh : trimChars (temp ++ [c]) = t := by simpa using h
      subst hcs
      simpa using hh.symm
    | false =>
      rw [hs] at h
      simp only [Bool.false_eq_true, if_false] at h
      have := ih (temp ++ [c]) _ _ t h
      simpa using this

theorem tokC_single_no_inner (cs : List Char) :
    ∀ temp q b t, tokC cs temp q b = [t] → hasInnerSep cs q b = false := by
  induction cs with
  | nil => intro temp q b t _; rfl
  | cons c cs ih =>
    intro temp q b t h
    cases cs with
    | nil => rfl
    | cons d ds =>
      rw [tokC] at h
      cases hs : sepCond c (qStep c q) (bStep c b) with
      | true =>
        rw [hs] at h
        simp only [if_true] at h
        have h2 : tokC (d :: ds) [] (qStep c q) (bStep c b) = [] := by
          cases hx : tokC (d :: ds) [] (qStep c q) (bStep c b) with
          | nil => rfl
          | cons y ys => rw [hx] at h; exact absurd h (by simp)
        exact absurd h2 (tokC_ne_nil_of_cs (d :: ds) [] _ _ (by simp))
      | false =>
        rw [hs] at h
        simp only [Bool.false_eq_true, if_false] at h
        have heq : hasInnerSep (c :: d :: ds) q b
            = (sepCond c (qStep c q) (bStep c b)
                || hasInnerSep (d :: ds) (qStep c q) (bStep c b)) := rfl
        rw [heq, hs]
        simpa using ih (temp ++ [c]) _ _ t h

theorem qshift (c : Char) (q : Nat) (l : List Char) :
    q + quotesIn (c :: l) = qStep c q + quotesIn l := by
  by_cases hc : c = '"' <;>
    simp [quotesIn, qStep, hc, List.count_cons] <;> omega

theorem bshift (c : Char) (b : Int) (l : List Char) :
    b + bracketBal (c :: l) = bStep c b + bracketBal l := by
  by_cases h1 : c = '[' <;> by_cases h2 : c = ']' <;>
    simp_all [bracketBal, bStep, List.count_cons] <;> omega

theorem quotesIn_append (x y : List Char) :
    quotesIn (x ++ y) = quotesIn x + quotesIn y := by
  simp [quotesIn, List.count_append]

theorem bracketBal_append (x y : List Char) :
    bracketBal (x ++ y) = bracketBal x + bracketBal y := by
  simp [bracketBal, List.count_append]
  omega

theorem allWS_counts (w : List Char) (hw : ∀ c ∈ w, c.isWhitespace) :
    quotesIn w = 0 ∧ bracketBal w = 0 := by
  have hq : '"' ∉ w := fun hm => by simpa using hw _ hm
  have hb1 : '[' ∉ w := fun hm => by simpa using hw _ hm
  have hb2 : ']' ∉ w := fun hm => by simpa using hw _ hm
  refine ⟨?_, ?_⟩
  · simpa [quotesIn] using List.count_eq_zero.mpr hq
  · simp [bracketBal, List.count_eq_zero.mpr hb1, List.count_eq_zero.mpr hb2]

theorem hasSep_decomp (cs : List Char) :
    ∀ q b, hasSepB cs q b = true →
      ∃ x y, cs = x ++ ' ' :: y ∧ (q + quotesIn x) % 2 = 0 ∧ b + bracketBal x = 0 := by
  induction cs with
  | nil => intro q b h; simp [hasSepB] at h
  | cons c cs ih =>
    intro q b h
    rw [hasSepB] at h
    rcases Bool.or_eq_true_iff.mp h with h1 | h1
    · have hc : c = ' ' := by
        have := (Bool.and_eq_true_iff.mp (Bool.and_eq_true_iff.mp h1).1).1
        simpa using this
      subst hc
      have hq : (qStep ' ' q) % 2 = 0 := by
        have := (Bool.and_eq_true_iff.mp (Bool.and_eq_true_iff.mp h1).1).2
        simpa using this
      have hb : bStep ' ' b = 0 := by
        have := (Bool.and_eq_true_iff.mp h1).2
        simpa using this
      refine ⟨[], cs, rfl, ?_, ?_⟩
      · simpa [quotesIn, qStep] using hq
      · simpa [bracketBal, bStep] using hb
    · obtain ⟨x, y, hxy, hq, hb⟩ := ih (qStep c q) (bStep c b) h1
      refine ⟨c :: x, y, by rw [hxy]; rfl, ?_, ?_⟩
      · rw [show q + quotesIn (c :: x) = qStep c q + quotesIn x from qshift c q x]
        exact hq
      · rw [show b + bracketBal (c :: x) = bStep c b + bracketBal x from bshift c b x]
        exact hb

theorem hasInner_lift (x : List Char) :
    ∀ q b y, (q + quotesIn x) % 2 = 0 → b + bracketBal x = 0 → y ≠ [] →
      hasInnerSep (x ++ ' ' :: y) q b = true := by
  induction x with
  | nil =>
    intro q b y hq hb hy
    cases y with
    | nil => exact absurd rfl hy
    | cons yc ys =>
      have heq : hasInnerSep (' ' :: yc :: ys) q b
          = (sepCond ' ' (qStep ' ' q) (bStep ' ' b)
              || hasInnerSep (yc :: ys) (qStep ' ' q) (bStep ' ' b)) := rfl
      rw [List.nil_append, heq]
      have hcond : sepCond ' ' (qStep ' ' q) (bStep ' ' b) = true := by
        simp [sepCond, qStep, bStep]
        constructor
        · simpa [quotesIn] using hq
        · simpa [bracketBal] using hb
      rw [hcond]
      simp
  | cons a x ih =>
    intro q b y hq hb hy
    have hne : x ++ ' ' :: y ≠ [] := by simp
    rcases hx : x ++ ' ' :: y with _ | ⟨d, ds⟩
    · exact absurd hx hne
    · have heq : hasInnerSep (a :: d :: ds) q b
          = (sepCond a (qStep a q) (bStep a b)
              || hasInnerSep (d :: ds) (qStep a q) (bStep a b)) := rfl
      rw [show (a :: x) ++ ' ' :: y = a :: (x ++ ' ' :: y) from rfl, hx, heq, ← hx]
      have := ih (qStep a q) (bStep a b) y
        (by rw [← qshift a q x]; simpa [qshift] using hq)
        (by rw [← bshift a b x]; simpa [bshift] using hb) hy
      rw [this]
      simp

theorem tokensL_single_idem (cs t : List Char)
    (h : tokensL cs = [t]) (hne : t ≠ []) : tokensL t = [t] := by
  rw [tokensL_eq_tokC] at h
  have ht : t = trimChars cs := by simpa using tokC_single_trim cs [] 0 0 t h
  have hinner : hasInnerSep cs 0 0 = false := tokC_single_no_inner cs [] 0 0 t h
  have hsep : hasSepB t 0 0 = false := by
    cases hx : hasSepB t 0 0 with
    | false => rfl
    | true =>
      exfalso
      obtain ⟨x, y, hxy, hq, hb⟩ := hasSep_decomp t 0 0 hx
      obtain ⟨w, z, hlz, hw, hz⟩ := trimChars_decomp cs
      rw [← ht] at hlz
      by_cases hyz : y ++ z = []
      · have hy : y = [] := (List.append_eq_nil.mp hyz).1
        have hlast : t.getLast? = some ' ' := by
          rw [hxy, hy]
          exact List.getLast?_concat x
        have := trimChars_getLast?_not_ws cs ' ' (by rw [← ht]; exact hlast)
        simp at this
      · have hcs : cs = (w ++ x) ++ ' ' :: (y ++ z) := by
          rw [hlz, hxy]
          simp
        have hq' : ((0 : Nat) + quotesIn (w ++ x)) % 2 = 0 := by
          rw [quotesIn_append, (allWS_counts w hw).1]
          simpa using hq
        have hb' : (0 : Int) + bracketBal (w ++ x) = 0 := by
          rw [bracketBal_append, (allWS_counts w hw).2]
          simpa using hb
        have hlift := hasInner_lift (w ++ x) 0 0 (y ++ z) hq' hb' hyz
        rw [← hcs] at hlift
        rw [hlift] at hinner
        exact absurd hinner (by simp)
  rw [tokensL_eq_tokC, tokC_no_sep t [] 0 0 hsep]
  have htt : trimChars t = t := by rw [ht, trimChars_idem]
  have hie : t.isEmpty = false := by
    cases t with
    | nil => exact absurd rfl hne
    | cons a as => rfl
  simp [hie, htt]

theorem qStep_space (q : Nat) : qStep ' ' q = q := rfl

theorem bStep_space (b : Int) : bStep ' ' b = b := rfl

theorem sepCond_space (q : Nat) (b : Int) :
    sepCond ' ' q b = true ↔ q % 2 = 0 ∧ b = 0 := by
  simp [sepCond]

theorem joinSp_cons_ne (t : List Char) (ts : List (List Char)) (h : ts ≠ []) :
    joinSp (t :: ts) = t ++ ' ' :: joinSp ts := by
  cases ts with
  | nil => exact absurd rfl h
  | cons u us => rfl

theorem trim_concat_space (temp : List Char)
    (hh : ∀ a, temp.head? = some a → a.isWhitespace = false)
    (hl : ∀ a, temp.getLast? = some a → a.isWhitespace = false) :
    trimChars (temp ++ [' ']) = temp := by
  cases temp with
  | nil => rfl
  | cons a t =>
    rw [trimChars]
    have h1 : ((a :: t) ++ [' ']).dropWhile Char.isWhitespace = (a :: t) ++ [' '] := by
      rw [List.cons_append, List.dropWhile_cons, if_neg (by simp [hh a rfl])]
    rw [h1]
    have h2 : ((a :: t) ++ [' ']).reverse = ' ' :: (a :: t).reverse := by simp
    rw [h2, List.dropWhile_cons, if_pos (by simp)]
    rcases hr : (a :: t).reverse with _ | ⟨d, ds⟩
    · simp at hr
    · have hlast : (a :: t).getLast? = some d := by
        rw [← List.head?_reverse, hr]
        rfl
      rw [List.dropWhile_cons, if_neg (by simp [hl d hlast]), ← hr, List.reverse_reverse]

theorem tokC_join (cs : List Char) :
    ∀ temp q b,
      (∀ c ∈ temp ++ cs, c.isWhitespace → c = ' ') →
      (temp ++ cs).getLast? ≠ some ' ' →
      (temp = [] → q % 2 = 0 ∧ b = 0) →
      (∀ a, temp.head? = some a → a ≠ ' ') →
      (temp.getLast? = some ' ' → ¬(q % 2 = 0 ∧ b = 0)) →
      joinSp (tokC cs temp q b) = temp ++ cs := by
  induction cs with
  | nil =>
    intro temp q b h1 h2 _ h4 _
    rw [tokC]
    by_cases htemp : temp = []
    · subst htemp; rfl
    · have hie : temp.isEmpty = false := by
        cases temp with
        | nil => exact absurd rfl htemp
        | cons a t => rfl
      rw [hie]
      have hhead : ∀ x, temp.head? = some x → x.isWhitespace = false := by
        intro x hx
        by_contra hws
        have hws' : x.isWhitespace = true := by
          cases hxx : x.isWhitespace
          · exact absurd hxx hws
          · rfl
        exact h4 x hx (h1 x (by simpa using List.mem_of_mem_head? hx) hws')
      have hlastw : ∀ x, temp.getLast? = some x → x.isWhitespace = false := by
        intro x hx
        by_contra hws
        have hws' : x.isWhitespace = true := by
          cases hxx : x.isWhitespace
          · exact absurd hxx hws
          · rfl
        have hsp := h1 x (by simpa using List.mem_of_mem_getLast? hx) hws'
        rw [hsp] at hx
        exact h2 (by simpa using hx)
      rw [trimChars_eq_self temp hhead hlastw]
      simp [joinSp]
  | cons c cs ih =>
    intro temp q b h1 h2 h3 h4 h6
    rw [tokC]
    cases hs : sepCond c (qStep c q) (bStep c b) with
    | true =>
      simp only [if_true]
      have hc : c = ' ' := by
        have := (Bool.and_eq_true_iff.mp (Bool.and_eq_true_iff.mp hs).1).1
        simpa using this
      subst hc
      rw [qStep_space, bStep_space] at hs ⊢
      have hqb : q % 2 = 0 ∧ b = 0 := (sepCond_space q b).mp hs
      have hcs : cs ≠ [] := by
        intro hnil
        subst hnil
        exact h2 (by simpa using List.getLast?_concat temp)
      have htr : trimChars (temp ++ [' ']) = temp := by
        refine trim_concat_space temp ?_ ?_
        · intro a ha
          by_contra hws
          have hws' : a.isWhitespace = true := by
            cases hxx : a.isWhitespace
            · exact absurd hxx hws
            · rfl
          exact h4 a ha
            (h1 a (List.mem_append_left _ (List.mem_of_mem_head? ha)) hws')
        · intro a ha
          by_contra hws
          have hws' : a.isWhitespace = true := by
            cases hxx : a.isWhitespace
            · exact absurd hxx hws
            · rfl
          have hsp := h1 a (List.mem_append_left _ (List.mem_of_mem_getLast? ha)) hws'
          rw [hsp] at ha
          exact h6 ha hqb
      rw [htr, joinSp_cons_ne temp _ (tokC_ne_nil_of_cs cs [] q b hcs)]
      have hrec := ih [] q b
        (by
          intro x hx hw
          have hx' : x ∈ cs := by simpa using hx
          exact h1 x (List.mem_append_right temp (List.mem_cons_of_mem ' ' hx')) hw)
        (by
          rw [List.nil_append]
          have heq : (temp ++ ' ' :: cs).getLast? = cs.getLast? := by
            rw [show temp ++ ' ' :: cs = (temp ++ [' ']) ++ cs by simp,
              List.getLast?_append_of_ne_nil _ hcs]
          rw [← heq]
          exact h2)
        (fun _ => hqb)
        (by intro a ha; exact absurd ha (by simp))
        (by intro ha; exact absurd ha (by simp))
      rw [List.nil_append] at hrec
      rw [hrec]
    | false =>
      simp only [Bool.false_eq_true, if_false]
      have hrec := ih (temp ++ [c]) (qStep c q) (bStep c b)
        (by
          intro x hx hw
          exact h1 x (by simpa using hx) hw)
        (by
          have heq : (temp ++ [c]) ++ cs = temp ++ c :: cs := by simp
          rw [heq]
          exact h2)
        (by intro hcontra; exact absurd hcontra (by simp))
        (by
          intro a ha hsp
          cases htemp : temp with
          | nil =>
            rw [htemp] at ha
            have hca : c = a := by simpa using ha
            have hqb := h3 htemp
            have hc' : c = ' ' := by rw [hca, hsp]
            subst hc'
            rw [qStep_space, bStep_space] at hs
            rw [(sepCond_space q b).mpr hqb] at hs
            exact absurd hs (by simp)
          | cons x xs =>
            rw [htemp] at ha
            have hha : ((x :: xs) ++ [c]).head? = some x := rfl
            rw [hha] at ha
            have hxa : x = a := by simpa using ha
            refine h4 a ?_ hsp
            rw [htemp, ← hxa]
            rfl)
        (by
          intro hlast hqb'
          have hcsp : c = ' ' := by
            have hgc := List.getLast?_concat (l := temp) (a := c)
            rw [hgc] at hlast
            simpa using hlast
          subst hcsp
          rw [qStep_space, bStep_space] at hqb' hs
          rw [(sepCond_space q b).mpr hqb'] at hs
          exact absurd hs (by simp))
      rw [hrec]
      simp

theorem tokensL_space_cons (v : List Char) :
    tokensL (' ' :: v) = [] :: tokensL v := by
  have h1 : sepCond ' ' (qStep ' ' 0) (bStep ' ' 0) = true := rfl
  have h2 : trimChars ([] ++ [' ']) = [] := rfl
  rw [tokensL_eq_tokC, tokC, if_pos h1, h2, tokensL_eq_tokC]
  rfl

/-- Claim C5: in `_parse_package_string` a space is a token separator exactly
when the number of double quotes seen so far is even and the running bracket
depth is zero (then the scan splits there); otherwise the space stays inside
the current buffer; and a nonempty remaining buffer at the end of the scan
is emitted as a final token. -/
theorem claim5_separator_characterization (u v : List Char) :
    ((quotesIn u % 2 = 0 ∧ bracketBal u = 0) →
      tokensL (u ++ ' ' :: v) = tokensL (u ++ [' ']) ++ tokensL v)
  ∧ (¬(quotesIn u % 2 = 0 ∧ bracketBal u = 0) →
      (scanRun (u ++ [' '])).toks = (scanRun u).toks ∧
        (scanRun (u ++ [' '])).temp = (scanRun u).temp ++ [' '])
  ∧ (∀ l : List Char, (scanRun l).temp.isEmpty = false →
      tokensL l = (scanRun l).toks ++ [trimChars (scanRun l).temp])
  ∧ (∀ s : String, parse_package_string s = (tokensL s.data).map String.mk) := by
  refine ⟨fun h => tokensL_sep_split u v h.1 h.2, scanRun_nonsep_space u, ?_, fun _ => rfl⟩
  intro l hl
  rw [tokensL_eq_flush, flushSt, if_neg (by simp [hl])]

/-- Claim C10: a leading separator space, and every separator space after
the first in a run of consecutive ones, emits an empty-string token; in
particular tokenizing `"a  b"` yields `["a", "", "b"]`. -/
theorem claim10_empty_tokens (u v w : List Char) :
    (tokensL (' ' :: v) = [] :: tokensL v)
  ∧ ((quotesIn u % 2 = 0 ∧ bracketBal u = 0) →
      tokensL (u ++ ' ' :: ' ' :: w) = tokensL (u ++ [' ']) ++ [] :: tokensL w)
  ∧ parse_package_string "a  b" = ["a", "", "b"] := by
  refine ⟨tokensL_space_cons v, fun h => ?_, by rfl⟩
  rw [tokensL_sep_split u (' ' :: w) h.1 h.2, tokensL_space_cons w]

/-- Claim C4: `_determine_update_status` returns `NewPackage` when the input
contains `N`, else `ReEmerge` when it contains `R`, else `Update` when it
contains `U`, else `Undefined` — first match wins, case-sensitively. -/
theorem claim4_status_precedence (s : String) :
    (s.data.contains 'N' = true → determine_update_status s = "NewPackage")
  ∧ (s.data.contains 'N' = false → s.data.contains 'R' = true →
      determine_update_status s = "ReEmerge")
  ∧ (s.data.contains 'N' = false → s.data.contains 'R' = false →
      s.data.contains 'U' = true → determine_update_status s = "Update")
  ∧ (s.data.contains 'N' = false → s.data.contains 'R' = false →
      s.data.contains 'U' = false → determine_update_status s = "Undefined")
  ∧ determine_update_status "NRU" = "NewPackage"
  ∧ determine_update_status "RU" = "ReEmerge" := by
  refine ⟨fun h1 => ?_, fun h1 h2 => ?_, fun h1 h2 h3 => ?_, fun h1 h2 h3 => ?_, rfl, rfl⟩
  · unfold determine_update_status
    rw [h1]
    simp
  · unfold determine_update_status
    rw [h1, h2]
    simp
  · unfold determine_update_status
    rw [h1, h2, h3]
    simp
  · unfold determine_update_status
    rw [h1, h2, h3]
    simp

set_option maxRecDepth 4000 in
/-- Claim C1: the documented ebuild line yields exactly one record with
kind `ebuild`, name `sys-devel/gnuconfig`, new version `20230731`, old
version `20230121`, repo `gentoo` and status `Update`. -/
theorem claim1_scenarioA :
    parse_update_details
        ["[ebuild     U  ] sys-devel/gnuconfig-20230731::gentoo [20230121::gentoo] 72 KiB"]
      = some [⟨"ebuild", "sys-devel/gnuconfig", some "20230731", some "20230121",
              "Update", some "gentoo", []⟩] := by
  decide

/-- Claim C2 counterexample: the truncated ebuild line `"[ebuild U ]"` is
selected for parsing and makes `parse_update_details` fail (a Python
`IndexError` on token 1, modelled as `none`), so the parsing core does
raise on malformed input. -/
theorem claim2_cex_truncated_line_raises :
    selLine "[ebuild U ]" = true ∧
      parse_update_details ["[ebuild U ]"] = none := by
  exact ⟨rfl, rfl⟩

/-- Claim C6 counterexample: the input `"\t"` tokenizes to the single token
`""`, but tokenizing `""` yields `[]`, not `[""]` — so `_parse_package_string`
is not idempotent on every single-token result. -/
theorem claim6_cex_tab_not_idempotent :
    parse_package_string "\t" = [""] ∧ parse_package_string "" = [] ∧
      ([] : List String) ≠ [""] := ⟨rfl, rfl, by simp⟩

/-- Claim C6 (amended): tokenizing is idempotent on a string tokenized to a
single nonempty token, and on a line whose whitespace consists of plain
spaces and which does not end in a space (in particular any such line with
balanced quotes and brackets), joining the tokens with single spaces
reproduces the line exactly; empty tokens preserve interior space runs. -/
theorem claim6_idempotent_and_join (l t : List Char) :
    (tokensL l = [t] → t ≠ [] → tokensL t = [t])
  ∧ ((∀ c ∈ l, c.isWhitespace → c = ' ') → l.getLast? ≠ some ' ' →
      joinSp (tokensL l) = l) := by
  constructor
  · exact fun h hne => tokensL_single_idem l t h hne
  · intro hsp hlast
    rw [tokensL_eq_tokC]
    refine tokC_join l [] 0 0 (by simpa using hsp) (by simpa using hlast)
      (fun _ => ⟨rfl, rfl⟩) ?_ ?_
    · intro a ha
      exact absurd ha (by simp)
    · intro ha
      exact absurd ha (by simp)

theorem parseLine_len (l : String) (xs : List PackageInfo) (h : parseLine l = some xs) :
    xs = [] ∨ ∃ p, xs = [p] := by
  unfold parseLine at h
  rcases htok : parse_package_string l with _ | ⟨status, rest⟩ <;> rw [htok] at h
  · exact absurd h (by simp)
  · dsimp only [] at h
    split_ifs at h
    · rcases Option.map_eq_some'.mp h with ⟨p, _, hxs⟩
      exact Or.inr ⟨p, hxs.symm⟩
    · rcases Option.map_eq_some'.mp h with ⟨p, _, hxs⟩
      exact Or.inr ⟨p, hxs.symm⟩
    · rcases Option.map_eq_some'.mp h with ⟨p, _, hxs⟩
      exact Or.inr ⟨p, hxs.symm⟩
    · exact Or.inl (by simpa using h.symm)

theorem lineRecord_toList (l : String) (xs : List PackageInfo) (h : parseLine l = some xs) :
    (lineRecord l).toList = xs := by
  rw [lineRecord, h]
  rcases parseLine_len l xs h with h0 | ⟨p, hp⟩
  · subst h0; rfl
  · subst hp; rfl

theorem goDetails_filterMap (ls : List String) :
    ∀ ps, goDetails ls = some ps → ps = ls.filterMap lineRecord := by
  induction ls with
  | nil =>
    intro ps h
    have : ps = [] := by simpa [goDetails] using h.symm
    simp [this]
  | cons l ls ih =>
    intro ps h
    rw [goDetails] at h
    rcases hpl : parseLine l with _ | xs <;> rw [hpl] at h
    · exact absurd h (by simp)
    · rcases hgo : goDetails ls with _ | rest <;> rw [hgo] at h
      · exact absurd h (by simp)
      · have hps : ps = xs ++ rest := by
          have := h
          simp at this
          exact this.symm
        rw [List.filterMap_cons]
        rcases parseLine_len l xs hpl with h0 | ⟨p, hp⟩
        · have hlr : lineRecord l = none := by
            rw [lineRecord, hpl, h0]
            rfl
          rw [hlr, hps, h0, ih rest hgo]
          rfl
        · have hlr : lineRecord l = some p := by
            rw [lineRecord, hpl, hp]
            rfl
          rw [hlr, hps, hp, ih rest hgo]
          rfl

/-- Claim C7: `parse_update_details` processes exactly the lines matching
the bracket pattern and not equal to the literal `"[ ok ]"`; lines whose
first token names no known variant contribute nothing; and the records come
out in source-line order with no sorting or deduplication (the output is a
`filterMap` of the filtered input, and a duplicated line yields a
duplicated record). -/
theorem claim7_filter_order (lines : List String) (ps : List PackageInfo) :
    (parse_update_details lines = some ps →
      ps = (lines.filter selLine).filterMap lineRecord)
  ∧ (∀ l : String, selLine l = (hasBracketContent l.data && l != "[ ok ]"))
  ∧ (∀ (l : String) (status : String) (rest : List String),
      parse_package_string l = status :: rest →
      hasSub ['e', 'b', 'u', 'i', 'l', 'd'] status.data = false →
      hasSub ['b', 'l', 'o', 'c', 'k', 's'] status.data = false →
      hasSub ['u', 'n', 'i', 'n', 's', 't', 'a', 'l', 'l'] status.data = false →
      parseLine l = some [])
  ∧ (∀ (l : String) (p : PackageInfo), selLine l = true → parseLine l = some [p] →
      parse_update_details [l, l] = some [p, p])
  ∧ parse_update_details ["[ ok ]", "no brackets here"] = some [] := by
  refine ⟨fun h => goDetails_filterMap _ ps h, fun _ => rfl, ?_, ?_, rfl⟩
  · intro l status rest htok h1 h2 h3
    unfold parseLine
    rw [htok]
    dsimp only []
    rw [h1, h2, h3]
    rfl
  · intro l p hsel hline
    unfold parse_update_details
    have : [l, l].filter selLine = [l, l] := by simp [hsel]
    rw [this, goDetails, hline, goDetails, hline, goDetails]
    rfl

theorem length_two_split (l : List (List Char)) (h : l.length ≥ 2) :
    ∃ a b t, l = a :: b :: t := by
  rcases l with _ | ⟨a, _ | ⟨b, t⟩⟩
  · simp at h
  · simp at h
  · exact ⟨a, b, _, rfl⟩

theorem lineOk_parseLine (l : String) (h : lineOk l = true) :
    (parseLine l).isSome = true := by
  unfold lineOk at h
  unfold parseLine
  rcases htok : parse_package_string l with _ | ⟨status, rest⟩ <;> rw [htok] at h
  · simp at h
  · dsimp only [] at h ⊢
    by_cases h1 : hasSub ['e', 'b', 'u', 'i', 'l', 'd'] status.data = true
    · rw [h1] at h ⊢
      simp only [if_true] at h ⊢
      rcases rest with _ | ⟨s1, _ | ⟨s2, rest'⟩⟩
      · simp at h
      · simp at h
      · dsimp only [] at h
        have hsp : (splitColon2 s1.data).length ≥ 2 := by simpa using h
        obtain ⟨nn, rp, t, hspl⟩ := length_two_split _ hsp
        unfold parse_package_ebuild
        dsimp only []
        rw [hspl]
        rfl
    · rw [eq_false_of_ne_true h1] at h ⊢
      simp only [Bool.false_eq_true, if_false] at h ⊢
      by_cases h2 : hasSub ['b', 'l', 'o', 'c', 'k', 's'] status.data = true
      · rw [h2] at h ⊢
        simp only [if_true] at h ⊢
        rcases rest with _ | ⟨s1, rest'⟩
        · simp at h
        · unfold parse_package_blocks
          rfl
      · rw [eq_false_of_ne_true h2] at h ⊢
        simp only [Bool.false_eq_true, if_false] at h ⊢
        by_cases h3 : hasSub ['u', 'n', 'i', 'n', 's', 't', 'a', 'l', 'l'] status.data = true
        · rw [h3] at h ⊢
          simp only [if_true] at h ⊢
          rcases rest with _ | ⟨s1, rest'⟩
          · simp at h
          · dsimp only [] at h
            have hsp : (splitColon2 s1.data).length ≥ 2 := by simpa using h
            obtain ⟨nm, rp, t, hspl⟩ := length_two_split _ hsp
            unfold parse_package_uninstall
            dsimp only []
            rw [hspl]
            rfl
        · rw [eq_false_of_ne_true h3] at h ⊢
          simp only [Bool.false_eq_true, if_false] at h ⊢
          rfl

theorem goDetails_isSome (ls : List String)
    (h : ∀ l ∈ ls, (parseLine l).isSome = true) : (goDetails ls).isSome = true := by
  induction ls with
  | nil => rfl
  | cons l ls ih =>
    rw [goDetails]
    rcases hpl : parseLine l with _ | xs
    · have := h l (by simp)
      rw [hpl] at this
      simp at this
    · rcases hgo : goDetails ls with _ | rest
      · have := ih (fun x hx => h x (by simp [hx]))
        rw [hgo] at this
        simp at this
      · rfl

/-- Claim C2 (amended): `parse_update_details` raises no exception provided
every selected line satisfies the builders' token-shape requirements (for
an `ebuild` line: at least three tokens and a `::` in token 1; for `blocks`:
at least two tokens; for `uninstall`: at least two tokens and a `::` in
token 1; unknown variants are always safe). On malformed lines violating
these — such as the truncated `"[ebuild U ]"` — it raises an `IndexError`
(modelled as `none`). -/
theorem claim2_no_raise_amended (lines : List String)
    (h : ∀ l ∈ lines, selLine l = true → lineOk l = true) :
    (parse_update_details lines).isSome = true := by
  unfold parse_update_details
  refine goDetails_isSome _ ?_
  intro l hl
  rw [List.mem_filter] at hl
  exact lineOk_parseLine l (h l hl.1 hl.2)

set_option maxRecDepth 10000 in
/-- Claim C2 witness: a concrete well-formed section parses successfully. -/
theorem claim2_no_raise_witness :
    (parse_update_details
      ["[ebuild     U  ] sys-devel/gnuconfig-20230731::gentoo [20230121::gentoo] 72 KiB",
       "[uninstall     ] perl-core/Compress-Raw-Zlib-2.202.0::gentoo",
       "no pattern here"]).isSome = true :=
  claim2_no_raise_amended _ (by decide)

theorem mem_keys_dictIns (k : String) (v : List String) (d : List (String × List String)) :
    ∀ x, x ∈ keysOf (dictIns k v d) → x ∈ keysOf d ∨ x = k := by
  induction d with
  | nil =>
    intro x h
    have hx : keysOf (dictIns k v []) = [k] := rfl
    rw [hx] at h
    exact Or.inr (by simpa using h)
  | cons kv rest ih =>
    rcases kv with ⟨k', v'⟩
    have hro : keysOf ((k', v') :: rest) = k' :: keysOf rest := rfl
    intro x h
    rw [dictIns] at h
    by_cases hk : (k' == k) = true
    · rw [if_pos hk] at h
      have hc : keysOf ((k, v) :: rest) = k :: keysOf rest := rfl
      rw [hc, List.mem_cons] at h
      rcases h with h | h
      · exact Or.inr h
      · exact Or.inl (by rw [hro]; exact List.mem_cons_of_mem _ h)
    · rw [if_neg hk] at h
      have hc : keysOf ((k', v') :: dictIns k v rest) = k' :: keysOf (dictIns k v rest) := rfl
      rw [hc, List.mem_cons] at h
      rcases h with h | h
      · refine Or.inl ?_
        rw [hro, h]
        exact List.mem_cons_self k' _
      · rcases ih x h with h2 | h2
        · exact Or.inl (by rw [hro]; exact List.mem_cons_of_mem _ h2)
        · exact Or.inr h2

theorem nodup_dictIns (k : String) (v : List String) (d : List (String × List String))
    (h : (keysOf d).Nodup) : (keysOf (dictIns k v d)).Nodup := by
  induction d with
  | nil => simp [dictIns, keysOf]
  | cons kv rest ih =>
    rcases kv with ⟨k', v'⟩
    have hro : keysOf ((k', v') :: rest) = k' :: keysOf rest := rfl
    rw [hro, List.nodup_cons] at h
    rw [dictIns]
    by_cases hk : (k' == k) = true
    · rw [if_pos hk]
      have hkk : k' = k := by simpa using hk
      have hc : keysOf ((k, v) :: rest) = k :: keysOf rest := rfl
      rw [hc, List.nodup_cons]
      exact ⟨by rw [← hkk]; exact h.1, h.2⟩
    · rw [if_neg hk]
      have hc : keysOf ((k', v') :: dictIns k v rest) = k' :: keysOf (dictIns k v rest) := rfl
      rw [hc, List.nodup_cons]
      refine ⟨?_, ih h.2⟩
      intro hc'
      rcases mem_keys_dictIns k v rest k' hc' with h2 | h2
      · exact h.1 h2
      · exact absurd (by simp [h2] : (k' == k) = true) hk

theorem nodup_addAttrs (sp : List String) :
    ∀ p : PackageInfo, (keysOf p.attributes).Nodup →
      (keysOf (addAttrs p sp).attributes).Nodup := by
  induction sp with
  | nil => intro p h; exact h
  | cons var sp ih =>
    intro p h
    have hfold : addAttrs p (var :: sp)
        = addAttrs (match attrOf var with
                    | some (k, v) => add_attributes p k v
                    | none => p) sp := rfl
    rw [hfold]
    rcases hv : attrOf var with _ | ⟨kk, vv⟩
    · exact ih p h
    · exact ih _ (nodup_dictIns kk vv p.attributes h)

/-- Claim C8 counterexample: adversarial ebuild token lists produce a record
whose name is empty, or carries a trailing hyphen — the name invariant of
the claim does not hold for every buildable record. -/
theorem claim8_cex_degenerate_names :
    (parse_package_ebuild ["[ebuild U ]", "1::g", "[0::g]"]).map
        PackageInfo.package_name = some ""
  ∧ (parse_package_ebuild ["[ebuild U ]", "abc-::g", "[0::g]"]).map
        PackageInfo.package_name = some "abc-"
  ∧ (some "" : Option String) ≠ some "x" := ⟨rfl, rfl, by decide⟩

/-- Claim C8 (amended): every record built by the blocks and uninstall
builders has `new_version` and `old_version` absent, and every builder
yields a record whose attribute keys are unique; the name, however, can be
empty or carry a leading/trailing hyphen on degenerate inputs. -/
theorem claim8_record_invariants_amended (sp : List String) (p : PackageInfo) :
    (parse_package_blocks sp = some p → p.new_version = none ∧ p.old_version = none)
  ∧ (parse_package_uninstall sp = some p → p.new_version = none ∧ p.old_version = none)
  ∧ (parse_package_ebuild sp = some p → (keysOf p.attributes).Nodup)
  ∧ (parse_package_blocks sp = some p → (keysOf p.attributes).Nodup)
  ∧ (parse_package_uninstall sp = some p → (keysOf p.attributes).Nodup) := by
  refine ⟨?_, ?_, ?_, ?_, ?_⟩
  · intro h
    unfold parse_package_blocks at h
    rcases sp with _ | ⟨s0, _ | ⟨s1, rest⟩⟩
    · exact absurd h (by simp)
    · exact absurd h (by simp)
    · dsimp only [] at h
      have hp := Option.some.inj h
      subst hp
      exact ⟨rfl, rfl⟩
  · intro h
    unfold parse_package_uninstall at h
    rcases sp with _ | ⟨s0, _ | ⟨s1, rest⟩⟩
    · exact absurd h (by simp)
    · exact absurd h (by simp)
    · dsimp only [] at h
      rcases hsp : splitColon2 s1.data with _ | ⟨nm, _ | ⟨rp, t⟩⟩ <;> rw [hsp] at h
      · exact absurd h (by simp)
      · exact absurd h (by simp)
      · dsimp only [] at h
        have hp := Option.some.inj h
        subst hp
        exact ⟨rfl, rfl⟩
  · intro h
    unfold parse_package_ebuild at h
    rcases sp with _ | ⟨s0, _ | ⟨s1, _ | ⟨s2, rest⟩⟩⟩
    · exact absurd h (by simp)
    · exact absurd h (by simp)
    · exact absurd h (by simp)
    · dsimp only [] at h
      rcases hsp : splitColon2 s1.data with _ | ⟨nn, _ | ⟨rp, t⟩⟩ <;> rw [hsp] at h
      · exact absurd h (by simp)
      · exact absurd h (by simp)
      · dsimp only [] at h
        have hp := Option.some.inj h
        subst hp
        exact nodup_addAttrs _ _ (by simp [keysOf])
  · intro h
    unfold parse_package_blocks at h
    rcases sp with _ | ⟨s0, _ | ⟨s1, rest⟩⟩
    · exact absurd h (by simp)
    · exact absurd h (by simp)
    · dsimp only [] at h
      have hp := Option.some.inj h
      subst hp
      exact nodup_dictIns _ _ [] (by simp [keysOf])
  · intro h
    unfold parse_package_uninstall at h
    rcases sp with _ | ⟨s0, _ | ⟨s1, rest⟩⟩
    · exact absurd h (by simp)
    · exact absurd h (by simp)
    · dsimp only [] at h
      rcases hsp : splitColon2 s1.data with _ | ⟨nm, _ | ⟨rp, t⟩⟩ <;> rw [hsp] at h
      · exact absurd h (by simp)
      · exact absurd h (by simp)
      · dsimp only [] at h
        have hp := Option.some.inj h
        subst hp
        exact nodup_dictIns _ _ [] (by simp [keysOf])

theorem splitChar_not_mem (sep : Char) (l : List Char) (h : sep ∉ l) :
    splitChar sep l = [l] := by
  induction l with
  | nil => rfl
  | cons c cs ih =>
    rw [splitChar, if_neg (by simp; intro hc; exact h (by simp [hc]))]
    rw [ih (fun hc => h (by simp [hc]))]

theorem splitChar_append_sep (sep : Char) (k rest : List Char) (h : sep ∉ k) :
    splitChar sep (k ++ sep :: rest) = k :: splitChar sep rest := by
  induction k with
  | nil =>
    rw [List.nil_append, splitChar, if_pos (by simp)]
  | cons c cs ih =>
    have hc : c ≠ sep := fun hc => h (by simp [hc])
    have hcs : sep ∉ cs := fun hm => h (by simp [hm])
    rw [List.cons_append, splitChar, if_neg (by simpa using hc), ih hcs]

theorem hasPre_append_self (p x : List Char) : hasPre p (p ++ x) = true := by
  induction p with
  | nil => rfl
  | cons c cs ih => simpa [hasPre] using ih

theorem hasSub_sandwich (p a b : List Char) : hasSub p (a ++ (p ++ b)) = true := by
  induction a with
  | nil =>
    rw [List.nil_append]
    cases hp : p with
    | nil =>
      subst hp
      cases b with
      | nil => rfl
      | cons x xs => rfl
    | cons pc ps =>
      rw [← hp]
      have hne : p ++ b = pc :: (ps ++ b) := by rw [hp]; rfl
      rw [hne, hasSub, ← hne, hasPre_append_self]
      rfl
  | cons c a ih =>
    rw [List.cons_append, hasSub, ih]
    simp

/-- Claim C9 counterexample: for the token `A="x=y"` the code splits on
every `=` and keeps only the piece between the first and second `=`, so the
stored value is `[""]`, not the full quoted text `["x=y"]`. -/
theorem claim9_cex_equals_inside_value :
    attrOf "A=\"x=y\"" = some ("A", [""]) ∧
      attrOf "A=\"x=y\"" ≠ some ("A", ["x=y"]) := ⟨rfl, by decide⟩

/-- Claim C9 (amended): for a token `key="values"` whose key and quoted text
contain no `=`, the attribute key is the text left of `=` and the value is
the quoted text with the surrounding quotes stripped, split on single
spaces; when the quoted text itself contains `=`, only the piece up to the
next `=` (quote stripped at both ends) survives. -/
theorem claim9_attr_extraction_amended (k vs : String)
    (hk : '=' ∉ k.data) (hv : '=' ∉ vs.data) :
    attrOf (String.mk (k.data ++ '=' :: '"' :: (vs.data ++ ['"'])))
      = some (k, (splitChar ' ' vs.data).map String.mk) := by
  unfold attrOf
  have hdata : (String.mk (k.data ++ '=' :: '"' :: (vs.data ++ ['"']))).data
      = k.data ++ '=' :: '"' :: (vs.data ++ ['"']) := rfl
  rw [hdata]
  have hguard : hasSub ['=', '"'] (k.data ++ '=' :: '"' :: (vs.data ++ ['"'])) = true := by
    have hshape : k.data ++ '=' :: '"' :: (vs.data ++ ['"'])
        = k.data ++ (['=', '"'] ++ (vs.data ++ ['"'])) := by simp
    rw [hshape]
    exact hasSub_sandwich _ _ _
  rw [hguard]
  simp only [if_true]
  have hsplit : splitChar '=' (k.data ++ '=' :: '"' :: (vs.data ++ ['"']))
      = k.data :: ['"' :: (vs.data ++ ['"'])] := by
    rw [splitChar_append_sep '=' k.data ('"' :: (vs.data ++ ['"'])) hk]
    rw [splitChar_not_mem '=' ('"' :: (vs.data ++ ['"']))
      (by simp; exact fun h => hv h)]
  rw [hsplit]
  have hdrop : (('"' :: (vs.data ++ ['"'])).drop 1).dropLast = vs.data := by
    simp
  dsimp only []
  rw [hdrop]

/-- Claim C9 witness: the amended extraction at the concrete token
`USE="a b"`. -/
theorem claim9_attr_witness :
    attrOf (String.mk ("USE".data ++ '=' :: '"' :: ("a b".data ++ ['"'])))
      = some ("USE", ["a", "b"]) :=
  (claim9_attr_extraction_amended "USE" "a b" (by decide) (by decide)).trans (by rfl)

theorem keysOf_append (d1 d2 : List (String × List String)) :
    keysOf (d1 ++ d2) = keysOf d1 ++ keysOf d2 := by
  simp [keysOf]

theorem flatVals_append (d1 d2 : List (String × List String)) :
    flatVals (d1 ++ d2) = flatVals d1 ++ flatVals d2 := by
  induction d1 with
  | nil => rfl
  | cons kv rest ih =>
    have h1 : flatVals (kv :: (rest ++ d2)) = kv.2 ++ flatVals (rest ++ d2) := rfl
    have h2 : flatVals (kv :: rest) = kv.2 ++ flatVals rest := rfl
    rw [List.cons_append, h1, h2, ih, List.append_assoc]

theorem dictSet_absent (k : String) (v : List String) (d : List (String × List String))
    (h : k ∉ keysOf d) : dictSet k v d = d ++ [(k, v)] := by
  induction d with
  | nil => rfl
  | cons kv rest ih =>
    rcases kv with ⟨k', v'⟩
    have hro : keysOf ((k', v') :: rest) = k' :: keysOf rest := rfl
    rw [hro] at h
    rw [dictSet, if_neg (by simp; exact fun he => h (by rw [he]; exact List.mem_cons_self _ _))]
    rw [ih (fun hm => h (List.mem_cons_of_mem _ hm)), List.cons_append]

theorem dictApp_lastEntry (k : String) (x : String) (cur : List String)
    (d : List (String × List String)) (h : k ∉ keysOf d) :
    dictApp k x (d ++ [(k, cur)]) = d ++ [(k, cur ++ [x])] := by
  induction d with
  | nil =>
    rw [List.nil_append, dictApp, if_pos (by simp)]
    rfl
  | cons kv rest ih =>
    rcases kv with ⟨k', v'⟩
    have hro : keysOf ((k', v') :: rest) = k' :: keysOf rest := rfl
    rw [hro] at h
    rw [List.cons_append, dictApp,
      if_neg (by simp; exact fun he => h (by rw [he]; exact List.mem_cons_self _ _))]
    rw [ih (fun hm => h (List.mem_cons_of_mem _ hm)), List.cons_append]

theorem getLast?_cons_eq (a : String) (xs : List String) :
    (a :: xs).getLast? = lastWins xs.getLast? (some a) := by
  cases hxs : xs with
  | nil => rfl
  | cons y ys =>
    rw [List.getLast?_cons_cons]
    rcases hz : (y :: ys).getLast? with _ | z
    · exact absurd hz (by simp)
    · rfl

theorem lastWins_absorb (o : Option String) (a : String) (fin : Option String) :
    lastWins (lastWins o (some a)) fin = lastWins o (some a) := by
  cases o <;> rfl

theorem hasBracePat_mem (l : List Char) (h : hasBracePat l = true) : '{' ∈ l := by
  induction l with
  | nil => simp [hasBracePat] at h
  | cons c cs ih =>
    rw [hasBracePat] at h
    rcases Bool.or_eq_true_iff.mp h with h1 | h1
    · have : c = '{' := by
        have := (Bool.and_eq_true_iff.mp (Bool.and_eq_true_iff.mp h1).1).1
        simpa using this
      rw [this]
      exact List.mem_cons_self _ _
    · exact List.mem_cons_of_mem _ (ih h1)

theorem goSections_spec (rest : List String) :
    ∀ (name : String) (d0 : List (String × List String)) (cur : List String)
      (fin : Option String),
      (keysOf (d0 ++ [(name, cur)])).Nodup →
      (∀ h ∈ headersOf rest, h ∉ keysOf (d0 ++ [(name, cur)])) →
      (headersOf rest).Nodup →
      flatVals (goSections rest name (d0 ++ [(name, cur)]) fin).secs
          = flatVals d0 ++ cur ++ payloadsOf rest
        ∧ (goSections rest name (d0 ++ [(name, cur)]) fin).final
          = lastWins (lastUnmarked rest) fin
        ∧ keysOf (goSections rest name (d0 ++ [(name, cur)]) fin).secs
          = keysOf d0 ++ name :: headersOf rest := by
  induction rest with
  | nil =>
    intro name d0 cur fin _ _ _
    rw [goSections]
    refine ⟨?_, rfl, ?_⟩
    · rw [flatVals_append]
      simp [flatVals, payloadsOf]
    · rw [keysOf_append]
      simp [keysOf, headersOf]
  | cons line rest ih =>
    intro name d0 cur fin hnodk hhk hnodh
    rw [goSections]
    by_cases hm : isMarked line = true
    · rw [if_pos hm]
      by_cases hb : hasBracePat (payloadOf line).data = true
      · rw [if_pos hb]
        have hh1 : headersOf (line :: rest) = payloadOf line :: headersOf rest := by
          simp [headersOf, List.filterMap_cons, hm, hb]
        have hpay : payloadsOf (line :: rest) = payloadsOf rest := by
          simp [payloadsOf, List.filterMap_cons, hm, hb]
        have hlu : lastUnmarked (line :: rest) = lastUnmarked rest := by
          simp [lastUnmarked, List.filter_cons, hm]
        have hpnotin : payloadOf line ∉ keysOf (d0 ++ [(name, cur)]) :=
          hhk _ (by rw [hh1]; exact List.mem_cons_self _ _)
        have hset : dictSet (payloadOf line) [] (d0 ++ [(name, cur)])
            = (d0 ++ [(name, cur)]) ++ [(payloadOf line, [])] :=
          dictSet_absent _ _ _ hpnotin
        rw [hset]
        have hnodh2 := List.nodup_cons.mp (hh1 ▸ hnodh)
        have ihres := ih (payloadOf line) (d0 ++ [(name, cur)]) [] fin
          (by
            rw [keysOf_append]
            have hsing : keysOf [(payloadOf line, ([] : List String))] = [payloadOf line] := rfl
            rw [hsing]
            rw [List.nodup_append]
            exact ⟨hnodk, by simp, by simpa using hpnotin⟩)
          (by
            intro h hmem
            rw [keysOf_append]
            have hsing : keysOf [(payloadOf line, ([] : List String))] = [payloadOf line] := rfl
            rw [hsing]
            intro hc
            rcases List.mem_append.mp hc with hc1 | hc1
            · exact hhk h (by rw [hh1]; exact List.mem_cons_of_mem _ hmem) hc1
            · have : h = payloadOf line := by simpa using hc1
              exact hnodh2.1 (this ▸ hmem))
          hnodh2.2
        rcases ihres with ⟨hf, hfin, hk⟩
        refine ⟨?_, ?_, ?_⟩
        · rw [hf, flatVals_append, hpay]
          simp [flatVals]
        · rw [hfin, hlu]
        · rw [hk, keysOf_append, hh1]
          have hsing : keysOf [(name, cur)] = [name] := rfl
          rw [hsing]
          simp
      · rw [if_neg hb]
        have hh1 : headersOf (line :: rest) = headersOf rest := by
          simp [headersOf, List.filterMap_cons, hm, hb]
        have hpay : payloadsOf (line :: rest) = payloadOf line :: payloadsOf rest := by
          simp [payloadsOf, List.filterMap_cons, hm, hb]
        have hlu : lastUnmarked (line :: rest) = lastUnmarked rest := by
          simp [lastUnmarked, List.filter_cons, hm]
        have hnamenotin : name ∉ keysOf d0 := by
          rw [keysOf_append] at hnodk
          have hsing : keysOf [(name, cur)] = [name] := rfl
          rw [hsing, List.nodup_append] at hnodk
          intro hc
          exact hnodk.2.2 hc (by simp)
        have happ : dictApp name (payloadOf line) (d0 ++ [(name, cur)])
            = d0 ++ [(name, cur ++ [payloadOf line])] :=
          dictApp_lastEntry name (payloadOf line) cur d0 hnamenotin
        rw [happ]
        have hkeq : keysOf (d0 ++ [(name, cur ++ [payloadOf line])])
            = keysOf (d0 ++ [(name, cur)]) := by
          rw [keysOf_append, keysOf_append]
          rfl
        have ihres := ih name d0 (cur ++ [payloadOf line]) fin
          (by rw [hkeq]; exact hnodk)
          (by intro h hmem; rw [hkeq]; exact hhk h (by rw [hh1]; exact hmem))
          (by rw [hh1] at hnodh; exact hnodh)
        rcases ihres with ⟨hf, hfin, hk⟩
        refine ⟨?_, ?_, ?_⟩
        · rw [hf, hpay]
          simp
        · rw [hfin, hlu]
        · rw [hk, hh1]
    · rw [if_neg hm]
      have hm' : isMarked line = false := by
        cases hx : isMarked line
        · rfl
        · exact absurd hx hm
      have hh1 : headersOf (line :: rest) = headersOf rest := by
        simp [headersOf, List.filterMap_cons, hm']
      have hpay : payloadsOf (line :: rest) = payloadsOf rest := by
        simp [payloadsOf, List.filterMap_cons, hm']
      have hlu : lastUnmarked (line :: rest) = lastWins (lastUnmarked rest) (some line) := by
        rw [lastUnmarked, lastUnmarked, List.filter_cons, if_pos (by simp [hm'])]
        exact getLast?_cons_eq line _
      have ihres := ih name d0 cur (some line) hnodk
        (by intro h hmem; exact hhk h (by rw [hh1]; exact hmem))
        (by rw [hh1] at hnodh; exact hnodh)
      rcases ihres with ⟨hf, hfin, hk⟩
      refine ⟨?_, ?_, ?_⟩
      · rw [hf, hpay]
      · rw [hfin, hlu, lastWins_absorb]
      · rw [hk, hh1]

theorem headersOf_brace (log : List String) (h : String) (hm : h ∈ headersOf log) :
    hasBracePat h.data = true := by
  rw [headersOf] at hm
  rcases List.mem_filterMap.mp hm with ⟨l, _, hl⟩
  by_cases hc : (isMarked l && hasBracePat (payloadOf l).data) = true
  · rw [if_pos hc] at hl
    have hb := (Bool.and_eq_true_iff.mp hc).2
    have hpl : payloadOf l = h := Option.some.inj hl
    rw [← hpl]
    exact hb
  · rw [if_neg hc] at hl
    exact absurd hl (by simp)

theorem lastWins_none (o : Option String) : lastWins o none = o := by
  cases o <;> rfl

/-- Claim C3 counterexample: with a repeated section header the assignment
`log_by_sections[name] = []` resets the section, dropping the payload of an
earlier marked content line — so not every marked line survives into a
section's content list. -/
theorem claim3_cex_duplicate_header_drops_line :
    split_log_to_sections ["a ::: {{ X }}", "a ::: body", "a ::: {{ X }}"]
        = ⟨[("beginning", []), ("{{ X }}", [])], none⟩
      ∧ isMarked "a ::: body" = true
      ∧ hasBracePat (payloadOf "a ::: body").data = false
      ∧ payloadOf "a ::: body" = "body" := ⟨rfl, rfl, rfl, rfl⟩

/-- Claim C3 (amended): provided no section header repeats, the payloads of
the marked non-header lines are exactly the concatenation of all section
content lists, in order (so each appears in exactly one section's list);
the section names are `beginning` followed by the headers in order of first
appearance; and of the unmarked lines only the last is retained under
`final`. With a repeated header, the reset drops earlier content. -/
theorem claim3_sections_amended (log : List String)
    (h : (headersOf log).Nodup) :
    flatVals (split_log_to_sections log).secs = payloadsOf log
  ∧ (split_log_to_sections log).final = lastUnmarked log
  ∧ keysOf (split_log_to_sections log).secs = "beginning" :: headersOf log := by
  unfold split_log_to_sections
  have hinit : [("beginning", ([] : List String))]
      = [] ++ [("beginning", ([] : List String))] := rfl
  rw [hinit]
  have hres := goSections_spec log "beginning" [] [] none
    (by simp [keysOf])
    (by
      intro hh hmem hc
      have hhb : hh = "beginning" := by simpa [keysOf] using hc
      have hbrace := headersOf_brace log hh hmem
      rw [hhb] at hbrace
      have := hasBracePat_mem _ hbrace
      exact absurd this (by decide))
    h
  rcases hres with ⟨hf, hfin, hk⟩
  refine ⟨?_, ?_, ?_⟩
  · rw [hf]
    rfl
  · rw [hfin, lastWins_none]
  · rw [hk]
    rfl

set_option maxRecDepth 10000 in
/-- Claim C3 witness: the amended statement at a concrete four-line log. -/
theorem claim3_sections_witness :
    flatVals (split_log_to_sections
        ["pre ::: {{ A }}", "p ::: c1", "nomark", "p ::: c2"]).secs
      = payloadsOf ["pre ::: {{ A }}", "p ::: c1", "nomark", "p ::: c2"]
  ∧ (split_log_to_sections
        ["pre ::: {{ A }}", "p ::: c1", "nomark", "p ::: c2"]).final
      = lastUnmarked ["pre ::: {{ A }}", "p ::: c1", "nomark", "p ::: c2"]
  ∧ keysOf (split_log_to_sections
        ["pre ::: {{ A }}", "p ::: c1", "nomark", "p ::: c2"]).secs
      = "beginning" :: headersOf ["pre ::: {{ A }}", "p ::: c1", "nomark", "p ::: c2"] :=
  claim3_sections_amended _ (by decide)

theorem splitChar_ne_nil (sep : Char) (l : List Char) : splitChar sep l ≠ [] := by
  cases l with
  | nil => simp [splitChar]
  | cons c cs =>
    rw [splitChar]
    by_cases hc : (c == sep) = true
    · rw [if_pos hc]
      simp
    · rw [if_neg hc]
      rcases hx : splitChar sep cs with _ | ⟨s, ss⟩ <;> simp

theorem splitChar_len_of_mem (sep : Char) (l : List Char) (h : sep ∈ l) :
    (splitChar sep l).length ≥ 2 := by
  induction l with
  | nil => simp at h
  | cons c cs ih =>
    rw [splitChar]
    by_cases hc : (c == sep) = true
    · rw [if_pos hc]
      have h1 : splitChar sep cs ≠ [] := splitChar_ne_nil sep cs
      rcases hx : splitChar sep cs with _ | ⟨s, ss⟩
      · exact absurd hx h1
      · simp
    · rw [if_neg hc]
      have hcs : sep ∈ cs := by
        rcases List.mem_cons.mp h with h1 | h1
        · exact absurd (by simp [h1]) hc
        · exact h1
      rcases hx : splitChar sep cs with _ | ⟨s, ss⟩
      · exact absurd hx (splitChar_ne_nil sep cs)
      · have := ih hcs
        rw [hx] at this
        simpa using this

theorem hasSub_eq_quote_mem (v : List Char) (h : hasSub ['=', '"'] v = true) :
    '=' ∈ v := by
  induction v with
  | nil => simp [hasSub, hasPre] at h
  | cons c cs ih =>
    rw [hasSub] at h
    rcases Bool.or_eq_true_iff.mp h with h1 | h1
    · have hce : c = '=' := by
        rw [hasPre] at h1
        have := (Bool.and_eq_true_iff.mp h1).1
        exact (by simpa using this : '=' = c).symm
      rw [hce]
      exact List.mem_cons_self _ _
    · exact List.mem_cons_of_mem _ (ih h1)

theorem attrOf_guard_splits (v : List Char) (h : hasSub ['=', '"'] v = true) :
    ∃ k v1 t, splitChar '=' v = k :: v1 :: t :=
  length_two_split _ (splitChar_len_of_mem '=' v (hasSub_eq_quote_mem v h))

end GentooUpdate
